import Mathlib

/-!
# Verification of the PythonWebCrawler crawl engine

A shallow embedding of `src/web-crawler.py` (class `WebCrawler`, function
`generate_html_report`) together with the parts of Python's `urllib.parse`
library (`urlparse`, `urljoin`) that the crawler calls.

Modelling conventions:
* Python `str` is modelled as `List Char` (`Str`); string operations
  (`split`, `find`, `lower`, `in`, `endswith`, slicing) are translated to
  list functions defined below.
* The model of `urllib.parse` follows CPython's `urlsplit`/`urlparse`/
  `urlunsplit`/`urlunparse`/`urljoin`.  It covers URL strings that CPython
  parses without error and without pre-processing: no leading/trailing
  whitespace, no tab/CR/LF characters, and no bracketed (IPv6) netlocs
  (CPython strips/validates those before the logic modelled here); `lower`
  is the ASCII case mapping.  All URL strings appearing in this development
  are of that form.
* The network and the HTML parser (`requests.get` + `BeautifulSoup`) are
  an oracle `net : Str → Option Response`: `none` models
  `requests.exceptions.RequestException` (timeout, DNS failure, connection
  refused); `some r` models a returned response, where `r.hrefs` is the
  list of `href` attributes BeautifulSoup finds in `response.text`, in
  document order.  Given the oracle, `check_url` is a pure function, and
  since `ThreadPoolExecutor.map` returns results in input order and the
  worker closure writes no shared state, the whole crawl is deterministic.
* `visited_urls` is a Python `set`; it is modelled as an insertion-ordered
  duplicate-free list.  Python's set iteration order (used only for the
  `referred_from` snapshot) is unspecified; every property proved about
  `referred_from` is invariant under the enumeration order.
* The `while` loop of `crawl` is modelled by structural recursion on a
  fuel argument; `crawl_fuel_stable` proves that the chosen fuel
  (`max_pages + 1`) is past the loop's termination point, so the modelled
  result is the loop's actual termination state.
-/

namespace PyCrawler

/-- Python `str`, as a list of code points. -/
abbrev Str := List Char

/-- ASCII uppercase test. -/
def isAsciiUpper (c : Char) : Bool := decide ('A' ≤ c) && decide (c ≤ 'Z')

/-- ASCII lowercase mapping of one character (Python `str.lower` on ASCII). -/
def charLower (c : Char) : Char :=
  if isAsciiUpper c then Char.ofNat (c.toNat + 32) else c

/-- Python `s.lower()` (ASCII range). -/
def strLower (s : Str) : Str := s.map charLower

/-- ASCII letter test (Python `c.isascii() and c.isalpha()`). -/
def isAsciiAlpha (c : Char) : Bool :=
  (decide ('a' ≤ c) && decide (c ≤ 'z')) || isAsciiUpper c

/-- Split at the first occurrence of `c`: `some (before, after)` when `c`
occurs (Python `s.split(c, 1)` when `c in s`, or `s.find(c)`). -/
def splitAtFirst (c : Char) : Str → Option (Str × Str)
  | [] => none
  | x :: xs =>
    if x = c then some ([], xs)
    else
      match splitAtFirst c xs with
      | some (a, b) => some (x :: a, b)
      | none => none

/-- Split at the last occurrence of `c` (Python `s.rfind(c)`). -/
def splitAtLast (c : Char) (s : Str) : Option (Str × Str) :=
  match splitAtFirst c s.reverse with
  | some (a, b) => some (b.reverse, a.reverse)
  | none => none

/-- Python substring containment `pat in s`. -/
def containsStr (s pat : Str) : Bool :=
  pat.isPrefixOf s ||
    match s with
    | [] => false
    | _ :: tail => containsStr tail pat

/-- Python `sep.join(parts)`. -/
def joinWith (sep : Str) : List Str → Str
  | [] => []
  | [p] => p
  | p :: q :: rest => p ++ sep ++ joinWith sep (q :: rest)

/-- Python `s.split(c)` (always returns at least one piece). -/
def splitOnChar (c : Char) : Str → List Str
  | [] => [[]]
  | x :: xs =>
    if x = c then [] :: splitOnChar c xs
    else
      match splitOnChar c xs with
      | h :: t => (x :: h) :: t
      | [] => [[x]]

/-- Python `str(n)` for a nonnegative integer. -/
def natStr (n : Nat) : Str := (toString n).toList

/-! ## Model of `urllib.parse` (CPython) -/

/-- CPython `urllib.parse.scheme_chars`. -/
def scheme_chars : Str :=
  "abcdefghijklmnopqrstuvwxyzABCDEFGHIJKLMNOPQRSTUVWXYZ0123456789+-.".toList

/-- The scheme-prefix validity test of CPython `urlsplit`: the text before
the first `:` is a scheme iff it is nonempty, starts with an ASCII letter
and consists of `scheme_chars`. -/
def validScheme : Str → Bool
  | [] => false
  | c :: rest => isAsciiAlpha c && (c :: rest).all (fun ch => ch ∈ scheme_chars)

/-- Characters that terminate the netloc in `_splitnetloc` (`'/?#'`). -/
def notDelim (c : Char) : Bool := c ≠ '/' && c ≠ '?' && c ≠ '#'

/-- Scheme-splitting stage of `urlsplit` (with default scheme `d`). -/
def splitScheme (url d : Str) : Str × Str :=
  match splitAtFirst ':' url with
  | some (before, after) =>
    if validScheme before then (strLower before, after) else (d, url)
  | none => (d, url)

/-- Netloc-splitting stage of `urlsplit` (`_splitnetloc` guarded by the
leading `'//'` test). -/
def splitNetloc (rest : Str) : Str × Str :=
  if rest.take 2 = "//".toList then
    ((rest.drop 2).takeWhile notDelim, (rest.drop 2).dropWhile notDelim)
  else ([], rest)

/-- Fragment-splitting stage of `urlsplit` (`allow_fragments=True`, the only
form the crawler uses). -/
def splitFragment (s : Str) : Str × Str :=
  match splitAtFirst '#' s with
  | some (a, b) => (a, b)
  | none => (s, [])

/-- Query-splitting stage of `urlsplit`. -/
def splitQuery (s : Str) : Str × Str :=
  match splitAtFirst '?' s with
  | some (a, b) => (a, b)
  | none => (s, [])

/-- Result of `urlsplit` (a `SplitResult` 5-tuple). -/
structure SplitResult where
  scheme : Str
  netloc : Str
  path : Str
  query : Str
  fragment : Str
deriving DecidableEq

/-- CPython `urllib.parse.urlsplit(url, scheme=d, allow_fragments=True)`. -/
def urlsplit (url d : Str) : SplitResult :=
  let s1 := splitScheme url d
  let s2 := splitNetloc s1.2
  let s3 := splitFragment s2.2
  let s4 := splitQuery s3.1
  ⟨s1.1, s2.1, s4.1, s4.2, s3.2⟩

/-- CPython `urllib.parse._splitparams`. -/
def splitparams (url : Str) : Str × Str :=
  if '/' ∈ url then
    match splitAtLast '/' url with
    | some (before, lastSeg) =>
      match splitAtFirst ';' lastSeg with
      | some (a, b) => (before ++ '/' :: a, b)
      | none => (url, [])
    | none => (url, [])
  else
    match splitAtFirst ';' url with
    | some (a, b) => (a, b)
    | none => (url, [])

/-- CPython `urllib.parse.uses_relative`. -/
def uses_relative : List Str :=
  ["", "ftp", "http", "gopher", "nntp", "imap", "wais", "file", "https",
   "shttp", "mms", "prospero", "rtsp", "rtspu", "sftp", "svn", "svn+ssh",
   "ws", "wss"].map String.toList

/-- CPython `urllib.parse.uses_netloc`. -/
def uses_netloc : List Str :=
  ["", "ftp", "http", "gopher", "nntp", "telnet", "imap", "wais", "file",
   "mms", "https", "shttp", "snews", "prospero", "rtsp", "rtspu", "rsync",
   "svn", "svn+ssh", "sftp", "nfs", "git", "git+ssh", "ws", "wss"].map
    String.toList

/-- Result of `urlparse` (a `ParseResult` 6-tuple). -/
structure ParseResult where
  scheme : Str
  netloc : Str
  path : Str
  params : Str
  query : Str
  fragment : Str
deriving DecidableEq

/-- CPython `urllib.parse.uses_params`. -/
def uses_params : List Str :=
  ["", "ftp", "hdl", "prospero", "http", "imap", "https", "shttp", "rtsp",
   "rtsps", "rtspu", "sip", "sips", "mms", "sftp", "tel"].map String.toList

/-- CPython `urllib.parse.urlparse(url, scheme=d)`: params are split from
the path only when the scheme uses them. -/
def urlparse (url d : Str) : ParseResult :=
  let r := urlsplit url d
  let pp :=
    if r.scheme ∈ uses_params ∧ ';' ∈ r.path then splitparams r.path
    else (r.path, [])
  ⟨r.scheme, r.netloc, pp.1, pp.2, r.query, r.fragment⟩

/-- CPython `urllib.parse.urlunsplit` (3.11 form of the netloc-insertion
condition). -/
def urlunsplit (scheme netloc path query fragment : Str) : Str :=
  let url :=
    if netloc ≠ [] ∨
        (scheme ≠ [] ∧ scheme ∈ uses_netloc ∧ path.take 2 ≠ "//".toList) then
      "//".toList ++ netloc ++
        (if path ≠ [] ∧ path.take 1 ≠ ['/'] then '/' :: path else path)
    else path
  let url := if scheme ≠ [] then scheme ++ ':' :: url else url
  let url := if query ≠ [] then url ++ '?' :: query else url
  if fragment ≠ [] then url ++ '#' :: fragment else url

/-- CPython `urllib.parse.urlunparse`. -/
def urlunparse (scheme netloc path params query fragment : Str) : Str :=
  let url := if params ≠ [] then path ++ ';' :: params else path
  urlunsplit scheme netloc url query fragment

/-- The slice assignment `segments[1:-1] = filter(None, segments[1:-1])`
in `urljoin`: drop empty strings, keeping the first and last element. -/
def filterInner : List Str → List Str
  | [] => []
  | [x] => [x]
  | x :: xs => if x = [] then filterInner xs else x :: filterInner xs

/-- See `filterInner`. -/
def filterMiddle : List Str → List Str
  | [] => []
  | [x] => [x]
  | x :: xs => x :: filterInner xs

/-- The `'..'`/`'.'` resolution loop of `urljoin` (`pop` on an empty list is
the swallowed `IndexError`). -/
def resolveSegments (segs : List Str) : List Str :=
  segs.foldl
    (fun acc seg =>
      if seg = "..".toList then acc.dropLast
      else if seg = ".".toList then acc
      else acc ++ [seg]) []

/-- CPython `urllib.parse.urljoin(base, url)`. -/
def urljoin (base url : Str) : Str :=
  if base = [] then url
  else if url = [] then base
  else
    let b := urlparse base []
    let u := urlparse url b.scheme
    if u.scheme ≠ b.scheme ∨ u.scheme ∉ uses_relative then url
    else if u.scheme ∈ uses_netloc ∧ u.netloc ≠ [] then
      urlunparse u.scheme u.netloc u.path u.params u.query u.fragment
    else
      let netloc := if u.scheme ∈ uses_netloc then b.netloc else u.netloc
      if u.path = [] ∧ u.params = [] then
        let query := if u.query = [] then b.query else u.query
        urlunparse u.scheme netloc b.path b.params query u.fragment
      else
        let base_parts0 := splitOnChar '/' b.path
        let base_parts :=
          if base_parts0.getLast? = some [] then base_parts0
          else base_parts0.dropLast
        let segments :=
          if u.path.take 1 = ['/'] then splitOnChar '/' u.path
          else filterMiddle (base_parts ++ splitOnChar '/' u.path)
        let resolved := resolveSegments segments
        let resolved :=
          if segments.getLast? = some ".".toList ∨
             segments.getLast? = some "..".toList
          then resolved ++ [[]] else resolved
        let joined := joinWith ['/'] resolved
        let finalPath := if joined = [] then ['/'] else joined
        urlunparse u.scheme netloc finalPath u.params u.query u.fragment

/-! ## The crawler (`src/web-crawler.py`) -/

/-- What `requests.get(url, timeout=10, headers=...)` returned, as seen by
`check_url`: the status code, the `Location` and `Content-Type` response
headers (`requests` headers are case-insensitive; `none` models an absent
header), and the `href` attributes BeautifulSoup extracts from
`response.text` in document order (consulted only on the HTML branch). -/
structure Response where
  status_code : Nat
  location : Option Str
  content_type : Option Str
  hrefs : List Str
deriving DecidableEq

/-- The network/parse oracle: `none` models a raised
`requests.exceptions.RequestException`. -/
abbrev Net := Str → Option Response

/-- The immutable configuration fields set by `WebCrawler.__init__`
(`self.start_url`, `self.domain`, `self.exclude_patterns`,
`self.max_pages`, `self.concurrency`). -/
structure WebCrawler where
  start_url : Str
  domain : Str
  exclude_patterns : List Str
  max_pages : Nat
  concurrency : Nat

/-- `WebCrawler.__init__`: `self.domain = urlparse(start_url).netloc`;
the mutable state is initialised separately in `crawl` below
(`visited_urls = set()`, `urls_to_visit = [start_url]`,
`broken_links = []`). -/
def WebCrawler.init (start_url : Str) (exclude_patterns : List Str := [])
    (max_pages : Nat := 100) (concurrency : Nat := 10) : WebCrawler :=
  ⟨start_url, (urlparse start_url []).netloc, exclude_patterns, max_pages,
   concurrency⟩

/-- The non-HTML extension tuple of `should_exclude`. -/
def nonHtmlExts : List Str :=
  [".jpg", ".jpeg", ".png", ".gif", ".pdf", ".zip", ".doc", ".docx"].map
    String.toList

/-- `WebCrawler.should_exclude`. -/
def should_exclude (w : WebCrawler) (url : Str) : Bool :=
  let parsed_url := urlparse url []
  if parsed_url.netloc ≠ [] ∧ parsed_url.netloc ≠ w.domain then true
  else if w.exclude_patterns.any (fun pattern => containsStr url pattern) then
    true
  else
    let path := strLower parsed_url.path
    if nonHtmlExts.any (fun ext => ext.isSuffixOf path) then true
    else false

/-- Python truthiness of `redirect_url = response.headers.get('Location')`:
present and nonempty. -/
def locationTruthy (r : Response) : Bool :=
  match r.location with
  | some l => !l.isEmpty
  | none => false

/-- The inline URL normalization of `check_url` (lines 92–96):
`f"{parsed.scheme}://{parsed.netloc}{parsed.path}"` plus `?query` when the
query is nonempty (the fragment was already separated by `urlparse`). -/
def normalize (absolute_url : Str) : Str :=
  let parsed := urlparse absolute_url []
  parsed.scheme ++ "://".toList ++ parsed.netloc ++ parsed.path ++
    (if parsed.query ≠ [] then '?' :: parsed.query else [])

/-- The `for link in soup.find_all('a', href=True)` loop of `check_url`:
resolve each href against the page URL, drop same-page fragment links
(`absolute_url.split('#')[0] == url`), normalize, and keep the link unless
`should_exclude` rejects it. -/
def extractLinks (w : WebCrawler) (url : Str) : List Str → List Str
  | [] => []
  | href :: rest =>
    let absolute_url := urljoin url href
    if absolute_url.takeWhile (fun c => c ≠ '#') = url then
      extractLinks w url rest
    else
      let normalized_url := normalize absolute_url
      if should_exclude w normalized_url then extractLinks w url rest
      else normalized_url :: extractLinks w url rest

/-- `WebCrawler.check_url`: returns `(status_code, links)`;
`(none, [])` models the `except requests.exceptions.RequestException`
branch.  A 3xx status with a truthy `Location` header returns early; a 3xx
status with no (or an empty) `Location` header falls through to the
ordinary status/content-type handling, exactly as in the source. -/
def check_url (w : WebCrawler) (net : Net) (url : Str) :
    Option Nat × List Str :=
  match net url with
  | none => (none, [])
  | some r =>
    let status_code := r.status_code
    if 300 ≤ status_code ∧ status_code < 400 ∧ locationTruthy r then
      (some status_code, [])
    else if 400 ≤ status_code then
      (some status_code, [])
    else if ¬ containsStr (strLower (r.content_type.getD []))
        "text/html".toList then
      (some status_code, [])
    else
      (some status_code, extractLinks w url r.hrefs)

/-- One entry of `self.broken_links`. -/
structure BrokenLinkRecord where
  url : Str
  status_code : Option Nat
  referred_from : List Str
deriving DecidableEq

/-- The mutable crawl state (`self.visited_urls`, `self.urls_to_visit`,
`self.broken_links`), plus an instrumentation counter `fetch_count` that
counts the `check_url` calls issued by `executor.map` (each batch element
is fetched exactly once per batch). -/
structure CrawlState where
  visited_urls : List Str
  urls_to_visit : List Str
  broken_links : List BrokenLinkRecord
  fetch_count : Nat
deriving DecidableEq

/-- The inner batch-collection loop of `crawl` (lines 111–116): pop from
the front of `urls_to_visit` while the batch is below `concurrency`,
skipping already-visited URLs and marking each batched URL visited
immediately.  Returns `(batch, remaining queue, visited)`. -/
def takeBatch (concurrency : Nat) (queue visited batch : List Str) :
    List Str × List Str × List Str :=
  match queue with
  | [] => (batch, [], visited)
  | url :: rest =>
    if batch.length < concurrency then
      if url ∈ visited then takeBatch concurrency rest visited batch
      else takeBatch concurrency rest (visited ++ [url]) (batch ++ [url])
    else (batch, url :: rest, visited)

/-- `[page for page in self.visited_urls if page != url][:5]` (the Python
set is enumerated in the model's insertion order; every property proved
about this list holds for any enumeration order). -/
def referringPages (visited : List Str) (url : Str) : List Str :=
  (visited.filter (fun page => page ≠ url)).take 5

/-- `status_code is None or status_code >= 400` (line 129). -/
def isBrokenStatus : Option Nat → Bool
  | none => true
  | some s => 400 ≤ s

/-- The `for link in links` loop (lines 138–140): append each link not
already visited and not already queued. -/
def addLinks (visited : List Str) (urls_to_visit : List Str) :
    List Str → List Str
  | [] => urls_to_visit
  | link :: rest =>
    if link ∉ visited ∧ link ∉ urls_to_visit then
      addLinks visited (urls_to_visit ++ [link]) rest
    else addLinks visited urls_to_visit rest

/-- The result-processing loop of `crawl` (lines 128–140): for each
`(url, (status_code, links))` append a `BrokenLinkRecord` when the status
is `None` or `>= 400`, then enqueue the new links.  Returns the updated
`(urls_to_visit, broken_links)`. -/
def processResults (visited : List Str) :
    List (Str × Option Nat × List Str) → List Str →
      List BrokenLinkRecord → List Str × List BrokenLinkRecord
  | [], urls_to_visit, broken_links => (urls_to_visit, broken_links)
  | (url, status_code, links) :: rest, urls_to_visit, broken_links =>
    let broken_links' :=
      if isBrokenStatus status_code then
        broken_links ++ [⟨url, status_code, referringPages visited url⟩]
      else broken_links
    processResults visited rest (addLinks visited urls_to_visit links)
      broken_links'

/-- The `while` loop of `crawl` (lines 109–140), by structural recursion on
a fuel bound; `crawl_fuel_stable` below shows the fuel chosen in `crawl`
is past the loop's termination point.  On `break` (empty batch) the state
mutations of the inner pop loop are kept, as in the source. -/
def crawlLoop (w : WebCrawler) (net : Net) : Nat → CrawlState → CrawlState
  | 0, st => st
  | fuel + 1, st =>
    if st.urls_to_visit ≠ [] ∧ st.visited_urls.length < w.max_pages then
      let tb := takeBatch w.concurrency st.urls_to_visit st.visited_urls []
      let batch := tb.1
      let queue' := tb.2.1
      let visited' := tb.2.2
      if batch = [] then ⟨visited', queue', st.broken_links, st.fetch_count⟩
      else
        let results := batch.map (fun url => (url, check_url w net url))
        let pr := processResults visited' results queue' st.broken_links
        crawlLoop w net fuel
          ⟨visited', pr.1, pr.2, st.fetch_count + results.length⟩
    else st

/-! ## The report renderer (`generate_html_report`) -/

/-- Python 3 `x >= y` where `x` is `link['status_code']` (`int` or `None`)
and `y` is an `int`: comparing `None` with an `int` raises `TypeError`. -/
def pyGe : Option Nat → Nat → Except Str Bool
  | some a, b => .ok (decide (b ≤ a))
  | none, _ =>
    .error "TypeError: >= not supported between instances of NoneType and int".toList

/-- The static part of the f-string of `generate_html_report` before the
per-link rows, with the three interpolations (`start_url`, `scan_date`,
`len(broken_links)`) spliced in.  Literal `\x7b`/`\x7d` are the braces of
the CSS block (doubled `{{`/`}}` in the Python f-string). -/
def reportHeader (start_url scan_date : Str) (count : Nat) : Str :=
  "\n    <!DOCTYPE html>\n    <html>\n    <head>\n        <title>Broken Links Report</title>\n        <style>\n            body \x7b font-family: Arial, sans-serif; margin: 20px; \x7d\n            h1, h2 \x7b color: #333; \x7d\n            .summary \x7b background-color: #f5f5f5; padding: 15px; border-radius: 5px; margin-bottom: 20px; \x7d\n            table \x7b border-collapse: collapse; width: 100%; \x7d\n            th, td \x7b border: 1px solid #ddd; padding: 8px; text-align: left; \x7d\n            th \x7b background-color: #f2f2f2; \x7d\n            tr:nth-child(even) \x7b background-color: #f9f9f9; \x7d\n            .status-error \x7b color: #d9534f; \x7d\n            .status-warning \x7b color: #f0ad4e; \x7d\n        </style>\n    </head>\n    <body>\n        <h1>Web Crawler: Broken Links Report</h1>\n        <div class=\"summary\">\n            <p><strong>Start URL:</strong> ".toList
  ++ start_url ++
  "</p>\n            <p><strong>Scan Date:</strong> ".toList
  ++ scan_date ++
  "</p>\n            <p><strong>Total Broken Links Found:</strong> ".toList
  ++ natStr count ++
  "</p>\n        </div>\n        \n        <h2>Broken Links</h2>\n        \n        <table>\n            <tr>\n                <th>URL</th>\n                <th>Status</th>\n                <th>Referred From</th>\n            </tr>\n    ".toList

/-- The closing static part of the report. -/
def reportFooter : Str :=
  "\n        </table>\n    </body>\n    </html>\n    ".toList

/-- One iteration of the `for link in broken_links` loop (lines 182–193).
`status_class` is computed first, so `link['status_code'] >= 400` runs —
and raises — before the `Connection Error` fallback on line 185 is ever
reached for a `None` status. -/
def reportRow (link : BrokenLinkRecord) : Except Str Str := do
  let ge ← pyGe link.status_code 400
  let status_class :=
    if ge then "status-error".toList else "status-warning".toList
  let referring :=
    if link.referred_from ≠ [] then
      joinWith "<br>".toList (link.referred_from.take 5)
    else "N/A".toList
  let status :=
    match link.status_code with
    | some s => if s ≠ 0 then natStr s else "Connection Error".toList
    | none => "Connection Error".toList
  pure ("\n            <tr>\n                <td>".toList ++ link.url ++
    "</td>\n                <td class=\"".toList ++ status_class ++
    "\">".toList ++ status ++
    "</td>\n                <td>".toList ++ referring ++
    "</td>\n            </tr>\n        ".toList)

/-- The row-appending loop of `generate_html_report`, short-circuiting on
the first raised `TypeError`. -/
def appendRows (html : Str) : List BrokenLinkRecord → Except Str Str
  | [] => .ok html
  | link :: rest =>
    match reportRow link with
    | .error e => .error e
    | .ok row => appendRows (html ++ row) rest

/-- `generate_html_report(broken_links, start_url, scan_date)`; `.error`
models an uncaught Python exception escaping the function. -/
def generate_html_report (broken_links : List BrokenLinkRecord)
    (start_url scan_date : Str) : Except Str Str :=
  match appendRows (reportHeader start_url scan_date broken_links.length)
      broken_links with
  | .error e => .error e
  | .ok html => .ok (html ++ reportFooter)

/-- `WebCrawler.crawl`: run the loop from the initial state
(`visited_urls = {}`, `urls_to_visit = [start_url]`,
`broken_links = []`).  The Python method returns `self.broken_links`;
the model returns the whole final state. -/
def crawl (w : WebCrawler) (net : Net) : CrawlState :=
  crawlLoop w net (w.max_pages + 1) ⟨[], [w.start_url], [], 0⟩

/-! ## Helper lemmas: splitting and case mapping -/

theorem splitAtFirst_eq_none_of_not_mem {c : Char} :
    ∀ {s : Str}, c ∉ s → splitAtFirst c s = none := by
  intro s
  induction s with
  | nil => intro _; rfl
  | cons x xs ih =>
    intro h
    have hx : ¬ x = c := fun e => h (by simp [e])
    have hxs : c ∉ xs := fun m => h (by simp [m])
    simp [splitAtFirst, if_neg hx, ih hxs]

theorem splitAtFirst_of_mem {c : Char} :
    ∀ {s : Str}, c ∈ s → ∃ a b, splitAtFirst c s = some (a, b) := by
  intro s
  induction s with
  | nil => intro h; simp at h
  | cons x xs ih =>
    intro h
    by_cases hx : x = c
    · exact ⟨[], xs, by simp [splitAtFirst, hx]⟩
    · have hxs : c ∈ xs := by
        rcases List.mem_cons.mp h with h1 | h2
        · exact absurd h1.symm hx
        · exact h2
      obtain ⟨a, b, hab⟩ := ih hxs
      exact ⟨x :: a, b, by simp [splitAtFirst, if_neg hx, hab]⟩

theorem splitAtFirst_eq_some {c : Char} : ∀ {s a b : Str},
    splitAtFirst c s = some (a, b) → s = a ++ c :: b ∧ c ∉ a := by
  intro s
  induction s with
  | nil => intro a b h; simp [splitAtFirst] at h
  | cons x xs ih =>
    intro a b h
    by_cases hx : x = c
    · subst hx
      simp [splitAtFirst] at h
      obtain ⟨h1, h2⟩ := h
      subst h1; subst h2
      simp
    · rw [splitAtFirst, if_neg hx] at h
      cases h2 : splitAtFirst c xs with
      | none => rw [h2] at h; simp at h
      | some p =>
        obtain ⟨a2, b2⟩ := p
        rw [h2] at h
        simp at h
        obtain ⟨ha, hb⟩ := h
        subst ha; subst hb
        obtain ⟨hs, hmem⟩ := ih h2
        refine ⟨by simp [hs], ?_⟩
        intro hmem2
        rcases List.mem_cons.mp hmem2 with h1 | h1
        · exact hx h1.symm
        · exact hmem h1

theorem splitAtFirst_append {c : Char} {a : Str} (b : Str) (h : c ∉ a) :
    splitAtFirst c (a ++ c :: b) = some (a, b) := by
  induction a with
  | nil => simp [splitAtFirst]
  | cons x xs ih =>
    have hx : ¬ x = c := fun hc => h (by simp [hc])
    have hxs : c ∉ xs := fun hc => h (by simp [hc])
    simp [splitAtFirst, if_neg hx, ih hxs]

theorem splitAtLast_eq_some {c : Char} {s a b : Str}
    (h : splitAtLast c s = some (a, b)) : s = a ++ c :: b ∧ c ∉ b := by
  unfold splitAtLast at h
  cases h2 : splitAtFirst c s.reverse with
  | none => rw [h2] at h; simp at h
  | some p =>
    obtain ⟨p1, p2⟩ := p
    rw [h2] at h
    simp at h
    obtain ⟨ha, hb⟩ := h
    obtain ⟨hs, hmem⟩ := splitAtFirst_eq_some h2
    subst ha; subst hb
    constructor
    · have h3 := congrArg List.reverse hs
      simpa using h3
    · simpa using hmem

theorem splitAtLast_append {c : Char} (a : Str) {b : Str} (h : c ∉ b) :
    splitAtLast c (a ++ c :: b) = some (a, b) := by
  unfold splitAtLast
  have h3 : (a ++ c :: b).reverse = b.reverse ++ c :: a.reverse := by simp
  rw [h3, splitAtFirst_append _ (by simpa using h)]
  simp

theorem splitAtLast_eq_none_of_not_mem {c : Char} {s : Str} (h : c ∉ s) :
    splitAtLast c s = none := by
  unfold splitAtLast
  rw [splitAtFirst_eq_none_of_not_mem (by simpa using h)]

theorem splitAtLast_of_mem {c : Char} {s : Str} (h : c ∈ s) :
    ∃ a b, splitAtLast c s = some (a, b) := by
  obtain ⟨a, b, hab⟩ :=
    @splitAtFirst_of_mem c s.reverse (by simpa using h)
  exact ⟨b.reverse, a.reverse, by unfold splitAtLast; rw [hab]⟩

theorem splitAtLast_append_left {c : Char} (l : Str) {m a b : Str}
    (h : splitAtLast c m = some (a, b)) :
    splitAtLast c (l ++ m) = some (l ++ a, b) := by
  obtain ⟨hm, hb⟩ := splitAtLast_eq_some h
  rw [hm, ← List.append_assoc]
  exact splitAtLast_append (l ++ a) hb

theorem takeWhile_append_of_all {p : Char → Bool} {a : Str} (b : Str)
    (h : ∀ c ∈ a, p c = true) :
    (a ++ b).takeWhile p = a ++ b.takeWhile p := by
  induction a with
  | nil => simp
  | cons x xs ih =>
    have hx := h x (by simp)
    rw [List.cons_append, List.takeWhile_cons, if_pos hx, ih
      fun c hc => h c (by simp [hc]), List.cons_append]

theorem dropWhile_append_of_all {p : Char → Bool} {a : Str} (b : Str)
    (h : ∀ c ∈ a, p c = true) :
    (a ++ b).dropWhile p = b.dropWhile p := by
  induction a with
  | nil => simp
  | cons x xs ih =>
    have hx := h x (by simp)
    rw [List.cons_append, List.dropWhile_cons, if_pos hx, ih
      fun c hc => h c (by simp [hc])]

theorem takeWhile_cons_of_neg {p : Char → Bool} {x : Char} (xs : Str)
    (h : p x = false) : (x :: xs).takeWhile p = [] := by
  simp [List.takeWhile_cons, h]

theorem dropWhile_cons_of_neg {p : Char → Bool} {x : Char} (xs : Str)
    (h : p x = false) : (x :: xs).dropWhile p = x :: xs := by
  simp [List.dropWhile_cons, h]

theorem dropWhile_head_false {p : Char → Bool} {l : Str} {c : Char} {t : Str}
    (h : l.dropWhile p = c :: t) : p c = false := by
  induction l with
  | nil => simp [List.dropWhile] at h
  | cons x xs ih =>
    by_cases hx : p x
    · rw [List.dropWhile_cons, if_pos hx] at h; exact ih h
    · rw [List.dropWhile_cons, if_neg hx] at h
      cases h; simpa using hx

theorem mem_of_mem_dropWhile {p : Char → Bool} {l : Str} {c : Char}
    (h : c ∈ l.dropWhile p) : c ∈ l := by
  have h2 := List.takeWhile_append_dropWhile p l
  rw [← h2]
  exact List.mem_append_right _ h

theorem mem_of_mem_takeWhile {p : Char → Bool} {l : Str} {c : Char}
    (h : c ∈ l.takeWhile p) : c ∈ l := by
  have h2 := List.takeWhile_append_dropWhile p l
  rw [← h2]
  exact List.mem_append_left _ h

theorem charLower_mem_scheme_chars {c : Char} (h : c ∈ scheme_chars) :
    charLower c ∈ scheme_chars := by
  have hall : ∀ x ∈ scheme_chars, charLower x ∈ scheme_chars := by decide
  exact hall c h

theorem charLower_idem_of_scheme {c : Char} (h : c ∈ scheme_chars) :
    charLower (charLower c) = charLower c := by
  have hall : ∀ x ∈ scheme_chars,
      charLower (charLower x) = charLower x := by decide
  exact hall c h

theorem charLower_alpha_of_scheme {c : Char} (h : c ∈ scheme_chars)
    (ha : isAsciiAlpha c = true) : isAsciiAlpha (charLower c) = true := by
  have hall : ∀ x ∈ scheme_chars,
      isAsciiAlpha x = true → isAsciiAlpha (charLower x) = true := by decide
  exact hall c h ha

theorem colon_not_mem_scheme_chars : ':' ∉ scheme_chars := by decide

theorem validScheme_strLower {s : Str} (h : validScheme s = true) :
    validScheme (strLower s) = true ∧ strLower (strLower s) = strLower s := by
  cases s with
  | nil => simp [validScheme] at h
  | cons c rest =>
    simp only [validScheme, Bool.and_eq_true, List.all_eq_true,
      decide_eq_true_eq] at h
    obtain ⟨ha, hall⟩ := h
    have hc := hall c (by simp)
    constructor
    · simp only [strLower, List.map_cons, validScheme, Bool.and_eq_true,
        List.all_eq_true, decide_eq_true_eq]
      refine ⟨charLower_alpha_of_scheme hc ha, ?_⟩
      intro ch hch
      rcases List.mem_cons.mp hch with rfl | hch2
      · exact charLower_mem_scheme_chars hc
      · obtain ⟨c0, hc0, rfl⟩ := List.mem_map.mp hch2
        exact charLower_mem_scheme_chars (hall c0 (by simp [hc0]))
    · simp only [strLower, List.map_map]
      apply List.map_congr_left
      intro c0 hc0
      simp only [Function.comp_apply]
      exact charLower_idem_of_scheme (hall c0 hc0)

theorem colon_not_mem_strLower {s : Str} (h : validScheme s = true) :
    ':' ∉ strLower s := by
  intro hmem
  simp only [strLower] at hmem
  obtain ⟨c0, hc0, hlow⟩ := List.mem_map.mp hmem
  cases s with
  | nil => simp at hc0
  | cons c rest =>
    simp only [validScheme, Bool.and_eq_true, List.all_eq_true,
      decide_eq_true_eq] at h
    have h2 := charLower_mem_scheme_chars (h.2 c0 hc0)
    rw [hlow] at h2
    exact colon_not_mem_scheme_chars h2

/-! ## Characterization of `urlsplit`/`urlparse` components -/

theorem pred_of_mem_takeWhile {p : Char → Bool} :
    ∀ {l : Str} {c : Char}, c ∈ l.takeWhile p → p c = true := by
  intro l
  induction l with
  | nil => intro c hc; simp [List.takeWhile] at hc
  | cons x xs ih =>
    intro c hc
    by_cases hx : p x
    · rw [List.takeWhile_cons, if_pos hx] at hc
      rcases List.mem_cons.mp hc with rfl | hc2
      · exact hx
      · exact ih hc2
    · rw [List.takeWhile_cons, if_neg hx] at hc
      simp at hc

theorem urlsplit_scheme_eq (url d : Str) :
    (urlsplit url d).scheme = (splitScheme url d).1 := rfl

theorem urlsplit_netloc_eq (url d : Str) :
    (urlsplit url d).netloc = (splitNetloc (splitScheme url d).2).1 := rfl

theorem urlsplit_path_eq (url d : Str) :
    (urlsplit url d).path =
      (splitQuery (splitFragment
        (splitNetloc (splitScheme url d).2).2).1).1 := rfl

theorem urlsplit_query_eq (url d : Str) :
    (urlsplit url d).query =
      (splitQuery (splitFragment
        (splitNetloc (splitScheme url d).2).2).1).2 := rfl

theorem urlparse_scheme_eq (url d : Str) :
    (urlparse url d).scheme = (urlsplit url d).scheme := rfl

theorem urlparse_netloc_eq (url d : Str) :
    (urlparse url d).netloc = (urlsplit url d).netloc := rfl

theorem urlparse_query_eq (url d : Str) :
    (urlparse url d).query = (urlsplit url d).query := rfl

theorem urlparse_path_def (url d : Str) :
    (urlparse url d).path =
      (if (urlsplit url d).scheme ∈ uses_params ∧ ';' ∈ (urlsplit url d).path
       then splitparams (urlsplit url d).path
       else ((urlsplit url d).path, [])).1 := rfl

theorem splitScheme_valid_of_ne {url : Str}
    (h : (splitScheme url []).1 ≠ []) :
    validScheme (splitScheme url []).1 = true ∧
      strLower (splitScheme url []).1 = (splitScheme url []).1 := by
  cases h2 : splitAtFirst ':' url with
  | none => simp [splitScheme, h2] at h
  | some p =>
    obtain ⟨a, b⟩ := p
    by_cases hv : validScheme a
    · have heq : splitScheme url [] = (strLower a, b) := by
        simp [splitScheme, h2, hv]
      rw [heq]
      exact ⟨(validScheme_strLower hv).1, (validScheme_strLower hv).2⟩
    · simp [splitScheme, h2, hv] at h

theorem splitScheme_append {s : Str} (t d : Str) (hv : validScheme s = true)
    (hl : strLower s = s) : splitScheme (s ++ ':' :: t) d = (s, t) := by
  have hc : ':' ∉ s := by rw [← hl]; exact colon_not_mem_strLower hv
  simp [splitScheme, splitAtFirst_append t hc, hv, hl]

theorem splitNetloc_fst_notDelim (s : Str) :
    ∀ c ∈ (splitNetloc s).1, notDelim c = true := by
  unfold splitNetloc
  by_cases h : s.take 2 = "//".toList
  · rw [if_pos h]; intro c hc; exact pred_of_mem_takeWhile hc
  · rw [if_neg h]; intro c hc; simp at hc

theorem splitNetloc_slashes (t : Str) :
    splitNetloc ('/' :: '/' :: t) =
      (t.takeWhile notDelim, t.dropWhile notDelim) := by
  unfold splitNetloc
  rw [if_pos (by rfl)]
  rfl

theorem not_mem_splitFragment_fst (s : Str) : '#' ∉ (splitFragment s).1 := by
  unfold splitFragment
  cases h : splitAtFirst '#' s with
  | none =>
    intro hm
    obtain ⟨a, b, hab⟩ := splitAtFirst_of_mem hm
    rw [h] at hab; cases hab
  | some p => exact (splitAtFirst_eq_some h).2

theorem splitFragment_of_not_mem {s : Str} (h : '#' ∉ s) :
    splitFragment s = (s, []) := by
  unfold splitFragment
  rw [splitAtFirst_eq_none_of_not_mem h]

theorem not_mem_splitQuery_fst (s : Str) : '?' ∉ (splitQuery s).1 := by
  unfold splitQuery
  cases h : splitAtFirst '?' s with
  | none =>
    intro hm
    obtain ⟨a, b, hab⟩ := splitAtFirst_of_mem hm
    rw [h] at hab; cases hab
  | some p => exact (splitAtFirst_eq_some h).2

theorem mem_splitQuery_fst {s : Str} {c : Char}
    (h : c ∈ (splitQuery s).1) : c ∈ s := by
  unfold splitQuery at h
  cases h2 : splitAtFirst '?' s with
  | none => rw [h2] at h; exact h
  | some p =>
    rw [h2] at h
    rw [(splitAtFirst_eq_some h2).1]
    exact List.mem_append_left _ h

theorem mem_splitQuery_snd {s : Str} {c : Char}
    (h : c ∈ (splitQuery s).2) : c ∈ s := by
  unfold splitQuery at h
  cases h2 : splitAtFirst '?' s with
  | none => rw [h2] at h; simp at h
  | some p =>
    rw [h2] at h
    rw [(splitAtFirst_eq_some h2).1]
    exact List.mem_append_right _ (by simp [h])

theorem splitQuery_of_not_mem {s : Str} (h : '?' ∉ s) :
    splitQuery s = (s, []) := by
  unfold splitQuery
  rw [splitAtFirst_eq_none_of_not_mem h]

theorem splitQuery_append {s : Str} (t : Str) (h : '?' ∉ s) :
    splitQuery (s ++ '?' :: t) = (s, t) := by
  unfold splitQuery
  rw [splitAtFirst_append t h]

theorem splitparams_fst_front (u : Str) : (splitparams u).1 <+: u := by
  by_cases h : '/' ∈ u
  · obtain ⟨before, lastSeg, hbl⟩ := splitAtLast_of_mem h
    cases h2 : splitAtFirst ';' lastSeg with
    | none =>
      have heq : (splitparams u).1 = u := by simp [splitparams, h, hbl, h2]
      rw [heq]
    | some p =>
      obtain ⟨a, b⟩ := p
      have heq : (splitparams u).1 = before ++ '/' :: a := by
        simp [splitparams, h, hbl, h2]
      rw [heq]
      obtain ⟨hseg, _⟩ := splitAtFirst_eq_some h2
      obtain ⟨hu, _⟩ := splitAtLast_eq_some hbl
      exact ⟨';' :: b, by simp [hu, hseg]⟩
  · cases h2 : splitAtFirst ';' u with
    | none =>
      have heq : (splitparams u).1 = u := by simp [splitparams, h, h2]
      rw [heq]
    | some p =>
      obtain ⟨a, b⟩ := p
      have heq : (splitparams u).1 = a := by simp [splitparams, h, h2]
      rw [heq]
      obtain ⟨hu, _⟩ := splitAtFirst_eq_some h2
      exact ⟨';' :: b, hu.symm⟩

theorem splitparams_fst_semi {u : Str} (h : ';' ∈ (splitparams u).1) :
    '/' ∈ (splitparams u).1 ∧
      ∀ a b, splitAtLast '/' (splitparams u).1 = some (a, b) → ';' ∉ b := by
  by_cases hs : '/' ∈ u
  · obtain ⟨before, lastSeg, hbl⟩ := splitAtLast_of_mem hs
    obtain ⟨hu, hnb⟩ := splitAtLast_eq_some hbl
    cases h2 : splitAtFirst ';' lastSeg with
    | none =>
      have heq : (splitparams u).1 = u := by simp [splitparams, hs, hbl, h2]
      rw [heq] at h ⊢
      have hns : ';' ∉ lastSeg := by
        intro hm
        obtain ⟨a, b, hab⟩ := splitAtFirst_of_mem hm
        rw [h2] at hab; cases hab
      refine ⟨hs, ?_⟩
      intro a b hab
      rw [hbl] at hab
      cases hab
      exact hns
    | some p =>
      obtain ⟨a0, b0⟩ := p
      have heq : (splitparams u).1 = before ++ '/' :: a0 := by
        simp [splitparams, hs, hbl, h2]
      rw [heq] at h ⊢
      obtain ⟨hseg, hna⟩ := splitAtFirst_eq_some h2
      have hna0 : '/' ∉ a0 := by
        intro hm
        exact hnb (by rw [hseg]; exact List.mem_append_left _ hm)
      refine ⟨by simp, ?_⟩
      intro a b hab
      rw [splitAtLast_append before hna0] at hab
      cases hab
      exact hna
  · cases h2 : splitAtFirst ';' u with
    | none =>
      have hnu : ';' ∉ u := by
        intro hm
        obtain ⟨a, b, hab⟩ := splitAtFirst_of_mem hm
        rw [h2] at hab; cases hab
      have heq : (splitparams u).1 = u := by simp [splitparams, hs, h2]
      rw [heq] at h
      exact absurd h hnu
    | some p =>
      obtain ⟨a0, b0⟩ := p
      have heq : (splitparams u).1 = a0 := by simp [splitparams, hs, h2]
      rw [heq] at h
      exact absurd h (splitAtFirst_eq_some h2).2

/-! ## Idempotence of the inline normalization (on scheme-ful URLs) -/

theorem urlparse_path_subset (url d : Str) :
    ∀ c ∈ (urlparse url d).path, c ∈ (urlsplit url d).path := by
  intro c hc
  rw [urlparse_path_def] at hc
  by_cases hg : (urlsplit url d).scheme ∈ uses_params ∧
      ';' ∈ (urlsplit url d).path
  · rw [if_pos hg] at hc
    exact (splitparams_fst_front _).sublist.subset hc
  · rw [if_neg hg] at hc
    exact hc

theorem urlsplit_path_no_query (url d : Str) : '?' ∉ (urlsplit url d).path := by
  rw [urlsplit_path_eq]
  exact not_mem_splitQuery_fst _

theorem urlsplit_path_no_frag (url d : Str) : '#' ∉ (urlsplit url d).path := by
  rw [urlsplit_path_eq]
  intro hm
  exact not_mem_splitFragment_fst _ (mem_splitQuery_fst hm)

theorem urlsplit_query_no_frag (url d : Str) :
    '#' ∉ (urlsplit url d).query := by
  rw [urlsplit_query_eq]
  intro hm
  exact not_mem_splitFragment_fst _ (mem_splitQuery_snd hm)

theorem normalize_components (x : Str) :
    normalize x = (urlparse x []).scheme ++ ':' :: '/' :: '/' ::
      ((urlparse x []).netloc ++ ((urlparse x []).path ++
        (if (urlparse x []).query ≠ [] then '?' :: (urlparse x []).query
         else []))) := by
  simp only [normalize]
  have h3 : "://".toList = ':' :: '/' :: '/' :: [] := rfl
  rw [h3]
  simp [List.append_assoc]

theorem drop_part_eval (pa q : Str) :
    ((pa.dropWhile notDelim) ++
        (if q ≠ [] then '?' :: q else [])).takeWhile notDelim = [] ∧
      ((pa.dropWhile notDelim) ++
          (if q ≠ [] then '?' :: q else [])).dropWhile notDelim =
        (pa.dropWhile notDelim) ++ (if q ≠ [] then '?' :: q else []) := by
  cases hB2 : pa.dropWhile notDelim with
  | nil =>
    simp only [List.nil_append]
    by_cases hq2 : q = []
    · subst hq2; simp
    · rw [if_pos hq2]
      exact ⟨takeWhile_cons_of_neg _ rfl, dropWhile_cons_of_neg _ rfl⟩
  | cons bh B2 =>
    have hf : notDelim bh = false := dropWhile_head_false hB2
    rw [List.cons_append]
    exact ⟨takeWhile_cons_of_neg _ hf, dropWhile_cons_of_neg _ hf⟩

theorem urlsplit_rebuild {S n pa q : Str}
    (hv : validScheme S = true) (hl : strLower S = S)
    (hn : ∀ c ∈ n, notDelim c = true)
    (hpaq : '?' ∉ pa) (hpaf : '#' ∉ pa) (hqf : '#' ∉ q) :
    urlsplit (S ++ ':' :: '/' :: '/' ::
        (n ++ (pa ++ (if q ≠ [] then '?' :: q else [])))) [] =
      ⟨S, n ++ pa.takeWhile notDelim, pa.dropWhile notDelim, q, []⟩ := by
  have hA : ∀ c ∈ pa.takeWhile notDelim, notDelim c = true :=
    fun c hc => pred_of_mem_takeWhile hc
  have hsch := splitScheme_append
    ('/' :: '/' :: (n ++ (pa ++ (if q ≠ [] then '?' :: q else [])))) [] hv hl
  have htw : (n ++ (pa ++ (if q ≠ [] then '?' :: q else []))).takeWhile
      notDelim = n ++ pa.takeWhile notDelim := by
    rw [takeWhile_append_of_all _ hn]
    congr 1
    conv_lhs => rw [← List.takeWhile_append_dropWhile notDelim pa, List.append_assoc]
    rw [takeWhile_append_of_all _ hA, (drop_part_eval pa q).1,
      List.append_nil]
  have hdw : (n ++ (pa ++ (if q ≠ [] then '?' :: q else []))).dropWhile
      notDelim = pa.dropWhile notDelim ++
        (if q ≠ [] then '?' :: q else []) := by
    rw [dropWhile_append_of_all _ hn]
    conv_lhs => rw [← List.takeWhile_append_dropWhile notDelim pa, List.append_assoc]
    rw [dropWhile_append_of_all _ hA, (drop_part_eval pa q).2]
  have hBQf : '#' ∉ pa.dropWhile notDelim ++
      (if q ≠ [] then '?' :: q else []) := by
    intro hm
    rcases List.mem_append.mp hm with hm | hm
    · exact hpaf (mem_of_mem_dropWhile hm)
    · by_cases hq2 : q = []
      · rw [if_neg (by simp [hq2])] at hm
        simp at hm
      · rw [if_pos hq2] at hm
        rcases List.mem_cons.mp hm with he | hm2
        · exact absurd he (by decide)
        · exact hqf hm2
  have hBq : '?' ∉ pa.dropWhile notDelim :=
    fun hm => hpaq (mem_of_mem_dropWhile hm)
  have hquery : splitQuery (pa.dropWhile notDelim ++
      (if q ≠ [] then '?' :: q else [])) = (pa.dropWhile notDelim, q) := by
    by_cases hq2 : q = []
    · rw [if_neg (by simp [hq2]), List.append_nil, splitQuery_of_not_mem hBq,
        hq2]
    · rw [if_pos hq2, splitQuery_append _ hBq]
  have hrfl : ∀ u : Str, urlsplit u [] =
      ⟨(splitScheme u []).1,
       (splitNetloc (splitScheme u []).2).1,
       (splitQuery (splitFragment (splitNetloc (splitScheme u []).2).2).1).1,
       (splitQuery (splitFragment (splitNetloc (splitScheme u []).2).2).1).2,
       (splitFragment (splitNetloc (splitScheme u []).2).2).2⟩ :=
    fun u => rfl
  rw [hrfl]
  simp only [hsch, splitNetloc_slashes, htw, hdw,
    splitFragment_of_not_mem hBQf, hquery]

theorem splitparams_dropWhile {x : Str}
    (hmem : ';' ∈ (urlparse x []).path.dropWhile notDelim)
    (hup : (urlsplit x []).scheme ∈ uses_params) :
    (splitparams ((urlparse x []).path.dropWhile notDelim)).1 =
      (urlparse x []).path.dropWhile notDelim := by
  have hpamem : ';' ∈ (urlparse x []).path := mem_of_mem_dropWhile hmem
  -- the original parse must have gone through `splitparams`
  have hgate : (urlsplit x []).scheme ∈ uses_params ∧
      ';' ∈ (urlsplit x []).path := by
    by_contra hg
    rw [urlparse_path_def, if_neg hg] at hpamem
    exact hg ⟨hup, hpamem⟩
  have hpa_eq : (urlparse x []).path = (splitparams (urlsplit x []).path).1 :=
    by rw [urlparse_path_def, if_pos hgate]
  have hsemi := @splitparams_fst_semi ((urlsplit x []).path)
    (by rw [← hpa_eq]; exact hpamem)
  rw [← hpa_eq] at hsemi
  obtain ⟨hslash, hlast⟩ := hsemi
  -- '/' is in the dropWhile part, because the takeWhile part has no '/'
  have hAnd : '/' ∉ (urlparse x []).path.takeWhile notDelim := by
    intro hm
    have := pred_of_mem_takeWhile hm
    simp [notDelim] at this
  have hslashB : '/' ∈ (urlparse x []).path.dropWhile notDelim := by
    rcases List.mem_append.mp (by
      rw [List.takeWhile_append_dropWhile notDelim (urlparse x []).path]
      exact hslash) with hm | hm
    · exact absurd hm hAnd
    · exact hm
  obtain ⟨a1, b1, hb1⟩ := splitAtLast_of_mem hslashB
  have hfull := splitAtLast_append_left
    ((urlparse x []).path.takeWhile notDelim) hb1
  rw [List.takeWhile_append_dropWhile notDelim (urlparse x []).path] at hfull
  have hnb1 : ';' ∉ b1 := hlast _ _ hfull
  simp [splitparams, hslashB, hb1, splitAtFirst_eq_none_of_not_mem hnb1]

/-- `normalize` is idempotent on every string whose parse carries a
nonempty scheme. -/
theorem normalize_idem_of_scheme {x : Str}
    (h : (urlparse x []).scheme ≠ []) :
    normalize (normalize x) = normalize x := by
  obtain ⟨hv, hl⟩ := @splitScheme_valid_of_ne x h
  have husplit : urlsplit (normalize x) [] =
      ⟨(urlparse x []).scheme,
       (urlparse x []).netloc ++ (urlparse x []).path.takeWhile notDelim,
       (urlparse x []).path.dropWhile notDelim,
       (urlparse x []).query, []⟩ := by
    rw [normalize_components x]
    exact urlsplit_rebuild hv hl (splitNetloc_fst_notDelim _)
      (fun hm => urlsplit_path_no_query x [] (urlparse_path_subset x [] _ hm))
      (fun hm => urlsplit_path_no_frag x [] (urlparse_path_subset x [] _ hm))
      (urlsplit_query_no_frag x [])
  have hscheme2 : (urlparse (normalize x) []).scheme =
      (urlparse x []).scheme := by
    rw [urlparse_scheme_eq, husplit]
  have hnet2 : (urlparse (normalize x) []).netloc =
      (urlparse x []).netloc ++ (urlparse x []).path.takeWhile notDelim := by
    rw [urlparse_netloc_eq, husplit]
  have hquery2 : (urlparse (normalize x) []).query =
      (urlparse x []).query := by
    rw [urlparse_query_eq, husplit]
  have hpath2 : (urlparse (normalize x) []).path =
      (urlparse x []).path.dropWhile notDelim := by
    rw [urlparse_path_def, husplit]
    by_cases hg : (urlparse x []).scheme ∈ uses_params ∧
        ';' ∈ (urlparse x []).path.dropWhile notDelim
    · rw [if_pos hg]
      exact splitparams_dropWhile hg.2 hg.1
    · rw [if_neg hg]
  rw [normalize_components (normalize x), hscheme2, hnet2, hpath2, hquery2,
    normalize_components x, List.append_assoc,
    ← List.append_assoc ((urlparse x []).path.takeWhile notDelim),
    List.takeWhile_append_dropWhile]

/-! ## Lemmas about the crawl loop's building blocks -/

/-- The records appended by one pass of the result-processing loop
(closed form of the `broken_links` updates of `processResults`). -/
def newRecs (visited : List Str) :
    List (Str × Option Nat × List Str) → List BrokenLinkRecord
  | [] => []
  | (url, status_code, _) :: rest =>
    if isBrokenStatus status_code then
      ⟨url, status_code, referringPages visited url⟩ :: newRecs visited rest
    else newRecs visited rest

theorem takeBatch_spec (conc : Nat) :
    ∀ (queue visited batch : List Str),
      ∃ new queue2,
        takeBatch conc queue visited batch =
          (batch ++ new, queue2, visited ++ new) ∧
        (∀ u ∈ new, u ∉ visited) ∧ new.Nodup ∧
        (batch.length ≤ conc → batch.length + new.length ≤ conc) ∧
        (∀ u ∈ new, u ∈ queue) ∧ (∀ u ∈ queue2, u ∈ queue) := by
  intro queue
  induction queue with
  | nil =>
    intro visited batch
    exact ⟨[], [], by simp [takeBatch], by simp, List.nodup_nil,
      by simp, by simp, by simp⟩
  | cons url rest ih =>
    intro visited batch
    by_cases hlt : batch.length < conc
    · by_cases hv : url ∈ visited
      · obtain ⟨new, q2, heq, hnv, hnd, hlen, hmq, hmq2⟩ := ih visited batch
        refine ⟨new, q2, ?_, hnv, hnd, hlen, ?_, ?_⟩
        · rw [takeBatch, if_pos hlt, if_pos hv]; exact heq
        · intro u hu; exact List.mem_cons_of_mem _ (hmq u hu)
        · intro u hu; exact List.mem_cons_of_mem _ (hmq2 u hu)
      · obtain ⟨new1, q2, heq, hnv, hnd, hlen, hmq, hmq2⟩ :=
          ih (visited ++ [url]) (batch ++ [url])
        refine ⟨url :: new1, q2, ?_, ?_, ?_, ?_, ?_, ?_⟩
        · rw [takeBatch, if_pos hlt, if_neg hv, heq]
          simp
        · intro u hu
          rcases List.mem_cons.mp hu with rfl | hu2
          · exact hv
          · intro hvm
            exact hnv u hu2 (List.mem_append_left _ hvm)
        · refine List.nodup_cons.mpr ⟨?_, hnd⟩
          intro hm
          exact hnv url hm (by simp)
        · intro hb
          have hb2 : (batch ++ [url]).length ≤ conc := by
            simp
            omega
          have := hlen hb2
          simp at this ⊢
          omega
        · intro u hu
          rcases List.mem_cons.mp hu with rfl | hu2
          · simp
          · exact List.mem_cons_of_mem _ (hmq u hu2)
        · intro u hu; exact List.mem_cons_of_mem _ (hmq2 u hu)
    · refine ⟨[], url :: rest, ?_, by simp, List.nodup_nil, by simp,
        by simp, fun u hu => hu⟩
      rw [takeBatch, if_neg hlt]
      simp

theorem takeBatch_run {conc : Nat}
    {queue visited batch2 queue2 visited2 : List Str}
    (h : takeBatch conc queue visited [] = (batch2, queue2, visited2)) :
    visited2 = visited ++ batch2 ∧ (∀ u ∈ batch2, u ∉ visited) ∧
      batch2.Nodup ∧ batch2.length ≤ conc ∧
      (∀ u ∈ batch2, u ∈ queue) ∧ (∀ u ∈ queue2, u ∈ queue) := by
  obtain ⟨new, q2, heq, hnv, hnd, hlen, hmq, hmq2⟩ :=
    takeBatch_spec conc queue visited []
  have h0 := h.symm.trans heq
  simp only [List.nil_append, Prod.mk.injEq] at h0
  obtain ⟨hb, hq, hv⟩ := h0
  subst hb; subst hq; subst hv
  refine ⟨rfl, hnv, hnd, ?_, hmq, hmq2⟩
  have := hlen (by simp)
  simpa using this

theorem extractLinks_spec (w : WebCrawler) (url : Str) :
    ∀ hrefs, ∀ l ∈ extractLinks w url hrefs,
      should_exclude w l = false ∧ ∃ a, l = normalize a := by
  intro hrefs
  induction hrefs with
  | nil => intro l hl; simp [extractLinks] at hl
  | cons href rest ih =>
    intro l hl
    simp only [extractLinks] at hl
    by_cases h1 : (urljoin url href).takeWhile (fun c => c ≠ '#') = url
    · rw [if_pos h1] at hl; exact ih l hl
    · rw [if_neg h1] at hl
      by_cases h2 : should_exclude w (normalize (urljoin url href)) = true
      · rw [if_pos h2] at hl; exact ih l hl
      · rw [if_neg h2] at hl
        rcases List.mem_cons.mp hl with rfl | hl2
        · exact ⟨by simpa using h2, urljoin url href, rfl⟩
        · exact ih l hl2

theorem check_url_none (w : WebCrawler) {net : Net} {url : Str}
    (h : net url = none) : check_url w net url = (none, []) := by
  simp [check_url, h]

theorem check_url_some_fst (w : WebCrawler) {net : Net} {url : Str}
    {r : Response} (h : net url = some r) :
    (check_url w net url).1 = some r.status_code := by
  simp only [check_url, h]
  split_ifs <;> rfl

theorem check_url_fst_none_iff {w : WebCrawler} {net : Net} {url : Str} :
    (check_url w net url).1 = none ↔ net url = none := by
  cases h : net url with
  | none => simp [check_url_none w h]
  | some r => simp [check_url_some_fst w h]

theorem check_url_broken_snd {w : WebCrawler} {net : Net} {url : Str}
    (h : isBrokenStatus (check_url w net url).1 = true) :
    (check_url w net url).2 = [] := by
  cases hn : net url with
  | none => rw [check_url_none w hn]
  | some r =>
    have hf := check_url_some_fst w hn
    rw [hf] at h
    simp only [isBrokenStatus] at h
    simp only [check_url, hn]
    split_ifs with h1 h2 h3
    · rfl
    · rfl
    · exact absurd (by simpa using h) h2
    · rfl

theorem check_url_ge400 (w : WebCrawler) {net : Net} {url : Str}
    {r : Response} (h : net url = some r) (h4 : 400 ≤ r.status_code) :
    check_url w net url = (some r.status_code, []) := by
  have h30 : ¬ (300 ≤ r.status_code ∧ r.status_code < 400 ∧
      locationTruthy r = true) := by
    rintro ⟨_, hlt, _⟩
    omega
  simp only [check_url, h]
  rw [if_neg h30, if_pos h4]

theorem check_url_redirect {w : WebCrawler} {net : Net} {url : Str}
    {r : Response} (h : net url = some r)
    (h3 : 300 ≤ r.status_code ∧ r.status_code < 400)
    (hloc : locationTruthy r = true) :
    check_url w net url = (some r.status_code, []) := by
  simp only [check_url, h]
  rw [if_pos ⟨h3.1, h3.2, hloc⟩]

theorem check_url_snd_spec (w : WebCrawler) (net : Net) (url : Str) :
    ∀ l ∈ (check_url w net url).2,
      should_exclude w l = false ∧ ∃ a, l = normalize a := by
  intro l hl
  cases hn : net url with
  | none => rw [check_url_none w hn] at hl; simp at hl
  | some r =>
    simp only [check_url, hn] at hl
    split_ifs at hl
    · simp at hl
    · simp at hl
    · exact extractLinks_spec w url r.hrefs l hl
    · simp at hl

theorem addLinks_spec (visited : List Str) :
    ∀ links urls, ∀ u ∈ addLinks visited urls links,
      u ∈ urls ∨ (u ∈ links ∧ u ∉ visited) := by
  intro links
  induction links with
  | nil => intro urls u hu; exact Or.inl hu
  | cons link rest ih =>
    intro urls u hu
    simp only [addLinks] at hu
    by_cases hc : link ∉ visited ∧ link ∉ urls
    · rw [if_pos hc] at hu
      rcases ih _ u hu with hu2 | hu2
      · rcases List.mem_append.mp hu2 with h | h
        · exact Or.inl h
        · simp at h
          subst h
          exact Or.inr ⟨by simp, hc.1⟩
      · exact Or.inr ⟨by simp [hu2.1], hu2.2⟩
    · rw [if_neg hc] at hu
      rcases ih _ u hu with hu2 | hu2
      · exact Or.inl hu2
      · exact Or.inr ⟨by simp [hu2.1], hu2.2⟩

theorem processResults_snd (visited : List Str) :
    ∀ results urls broken,
      (processResults visited results urls broken).2 =
        broken ++ newRecs visited results := by
  intro results
  induction results with
  | nil => intro urls broken; simp [processResults, newRecs]
  | cons e rest ih =>
    intro urls broken
    obtain ⟨url, status_code, links⟩ := e
    simp only [processResults, newRecs]
    by_cases hb : isBrokenStatus status_code = true
    · rw [if_pos hb, if_pos hb, ih]
      simp
    · rw [if_neg hb, if_neg hb, ih]

theorem processResults_fst (visited : List Str) :
    ∀ results urls broken,
      ∀ u ∈ (processResults visited results urls broken).1,
        u ∈ urls ∨ ∃ e ∈ results, u ∈ e.2.2 ∧ u ∉ visited := by
  intro results
  induction results with
  | nil => intro urls broken u hu; exact Or.inl hu
  | cons e rest ih =>
    intro urls broken u hu
    obtain ⟨url, status_code, links⟩ := e
    simp only [processResults] at hu
    rcases ih _ _ u hu with hu2 | ⟨e2, he2, hm2, hnv2⟩
    · rcases addLinks_spec visited links urls u hu2 with h | h
      · exact Or.inl h
      · exact Or.inr ⟨(url, status_code, links), by simp, h.1, h.2⟩
    · exact Or.inr ⟨e2, List.mem_cons_of_mem _ he2, hm2, hnv2⟩

theorem newRecs_mem (visited : List Str) :
    ∀ results, ∀ rec ∈ newRecs visited results,
      ∃ e ∈ results,
        rec = ⟨e.1, e.2.1, referringPages visited e.1⟩ ∧
        isBrokenStatus e.2.1 = true := by
  intro results
  induction results with
  | nil => intro rec hr; simp [newRecs] at hr
  | cons e rest ih =>
    intro rec hr
    obtain ⟨url, status_code, links⟩ := e
    simp only [newRecs] at hr
    by_cases hb : isBrokenStatus status_code = true
    · rw [if_pos hb] at hr
      rcases List.mem_cons.mp hr with rfl | hr2
      · exact ⟨(url, status_code, links), by simp, rfl, hb⟩
      · obtain ⟨e2, he2, hq, hb2⟩ := ih rec hr2
        exact ⟨e2, List.mem_cons_of_mem _ he2, hq, hb2⟩
    · rw [if_neg hb] at hr
      obtain ⟨e2, he2, hq, hb2⟩ := ih rec hr
      exact ⟨e2, List.mem_cons_of_mem _ he2, hq, hb2⟩

theorem newRecs_count (w : WebCrawler) (net : Net) (visited : List Str) :
    ∀ batch : List Str, batch.Nodup → ∀ u,
      ((newRecs visited
          (batch.map fun url => (url, check_url w net url))).filter
        (fun r => r.url = u)).length =
      if u ∈ batch ∧ isBrokenStatus (check_url w net u).1 = true then 1
      else 0 := by
  intro batch
  induction batch with
  | nil => intro _ u; simp [newRecs]
  | cons b rest ih =>
    intro hnd u
    have hnd2 := List.nodup_cons.mp hnd
    rcases hcu : check_url w net b with ⟨s0, l0⟩
    rw [List.map_cons, hcu]
    simp only [newRecs]
    by_cases hb : isBrokenStatus s0 = true
    · rw [if_pos hb]
      by_cases hub : u = b
      · subst hub
        rw [List.filter_cons_of_pos (by simp), List.length_cons,
          ih hnd2.2 u, if_neg (fun hc => hnd2.1 hc.1),
          if_pos ⟨by simp, by rw [hcu]; exact hb⟩]
      · rw [List.filter_cons_of_neg (by simp [Ne.symm hub]), ih hnd2.2 u]
        simp only [List.mem_cons, hub, false_or]
    · rw [if_neg hb, ih hnd2.2 u]
      by_cases hub : u = b
      · subst hub
        have hb2 : ¬ isBrokenStatus (check_url w net u).1 = true := by
          rw [hcu]; exact hb
        rw [if_neg (fun hc => hb2 hc.2), if_neg (fun hc => hb2 hc.2)]
      · simp only [List.mem_cons, hub, false_or]

/-! ## The crawl loop: unfolding, induction principle, fuel adequacy -/

theorem crawlLoop_zero (w : WebCrawler) (net : Net) (st : CrawlState) :
    crawlLoop w net 0 st = st := rfl

theorem crawlLoop_succ (w : WebCrawler) (net : Net) (fuel : Nat)
    (st : CrawlState) :
    crawlLoop w net (fuel + 1) st =
      if st.urls_to_visit ≠ [] ∧ st.visited_urls.length < w.max_pages then
        (let tb := takeBatch w.concurrency st.urls_to_visit st.visited_urls []
        if tb.1 = [] then ⟨tb.2.2, tb.2.1, st.broken_links, st.fetch_count⟩
        else
          let results := tb.1.map fun url => (url, check_url w net url)
          let pr := processResults tb.2.2 results tb.2.1 st.broken_links
          crawlLoop w net fuel
            ⟨tb.2.2, pr.1, pr.2, st.fetch_count + results.length⟩)
      else st := rfl

/-- Induction principle for the batch loop: any predicate preserved by a
full batch step and by the `break` step holds for the loop's result. -/
theorem crawlLoop_induction (w : WebCrawler) (net : Net)
    (P : CrawlState → Prop)
    (hstep : ∀ st, P st →
      st.urls_to_visit ≠ [] → st.visited_urls.length < w.max_pages →
      ∀ batch queue2 visited2,
        takeBatch w.concurrency st.urls_to_visit st.visited_urls [] =
          (batch, queue2, visited2) →
        batch ≠ [] →
        P ⟨visited2,
           (processResults visited2
             (batch.map fun url => (url, check_url w net url)) queue2
             st.broken_links).1,
           (processResults visited2
             (batch.map fun url => (url, check_url w net url)) queue2
             st.broken_links).2,
           st.fetch_count +
             (batch.map fun url => (url, check_url w net url)).length⟩)
    (hbreak : ∀ st, P st →
      st.urls_to_visit ≠ [] → st.visited_urls.length < w.max_pages →
      ∀ batch queue2 visited2,
        takeBatch w.concurrency st.urls_to_visit st.visited_urls [] =
          (batch, queue2, visited2) →
        batch = [] →
        P ⟨visited2, queue2, st.broken_links, st.fetch_count⟩) :
    ∀ fuel st, P st → P (crawlLoop w net fuel st) := by
  intro fuel
  induction fuel with
  | zero => intro st h; exact h
  | succ fuel ih =>
    intro st h
    rw [crawlLoop_succ]
    by_cases hguard : st.urls_to_visit ≠ [] ∧
        st.visited_urls.length < w.max_pages
    · rw [if_pos hguard]
      obtain ⟨hne, hlt⟩ := hguard
      rcases htb : takeBatch w.concurrency st.urls_to_visit st.visited_urls []
        with ⟨batch, queue2, visited2⟩
      simp only [htb]
      by_cases hb : batch = []
      · rw [if_pos hb]
        exact hbreak st h hne hlt batch queue2 visited2 htb hb
      · rw [if_neg hb]
        exact ih _ (hstep st h hne hlt batch queue2 visited2 htb hb)
    · rw [if_neg hguard]
      exact h

/-- Once the fuel exceeds the remaining page budget, more fuel does not
change the result: `crawl`'s fuel of `max_pages + 1` is past the loop's
actual termination point. -/
theorem crawl_fuel_stable (w : WebCrawler) (net : Net) :
    ∀ fuel st, w.max_pages ≤ st.visited_urls.length + fuel →
      crawlLoop w net (fuel + 1) st = crawlLoop w net fuel st := by
  intro fuel
  induction fuel with
  | zero =>
    intro st h
    rw [crawlLoop_succ, crawlLoop_zero,
      if_neg (fun hg => absurd hg.2 (by omega))]
  | succ fuel ih =>
    intro st h
    rw [crawlLoop_succ w net (fuel + 1) st, crawlLoop_succ w net fuel st]
    by_cases hguard : st.urls_to_visit ≠ [] ∧
        st.visited_urls.length < w.max_pages
    · rw [if_pos hguard, if_pos hguard]
      rcases htb : takeBatch w.concurrency st.urls_to_visit st.visited_urls []
        with ⟨batch, queue2, visited2⟩
      simp only [htb]
      by_cases hb : batch = []
      · rw [if_pos hb, if_pos hb]
      · rw [if_neg hb, if_neg hb]
        apply ih
        have hrun := takeBatch_run htb
        have hlen : st.visited_urls.length + 1 ≤ visited2.length := by
          rw [hrun.1, List.length_append]
          have h0 : batch.length ≠ 0 :=
            fun h0 => hb (List.length_eq_zero.mp h0)
          omega
        simp only []
        omega
    · rw [if_neg hguard, if_neg hguard]

theorem referringPages_spec (visited : List Str) (url : Str) :
    (referringPages visited url).length ≤ 5 ∧
      url ∉ referringPages visited url ∧
      ∀ p ∈ referringPages visited url, p ∈ visited := by
  unfold referringPages
  refine ⟨?_, ?_, ?_⟩
  · rw [List.length_take]
    exact min_le_left _ _
  · intro hm
    have h2 := List.of_mem_filter (List.take_subset _ _ hm)
    simp at h2
  · intro p hp
    exact List.mem_of_mem_filter (List.take_subset _ _ hp)

/-- Invariant: the fetch counter equals the visited-set size, and the
visited set never holds duplicates. -/
theorem crawl_count_nodup (w : WebCrawler) (net : Net) :
    (crawl w net).fetch_count = (crawl w net).visited_urls.length ∧
      (crawl w net).visited_urls.Nodup := by
  refine crawlLoop_induction w net
    (fun st => st.fetch_count = st.visited_urls.length ∧
      st.visited_urls.Nodup) ?_ ?_ _ _ ⟨rfl, List.nodup_nil⟩
  · intro st h _ _ batch queue2 visited2 htb _
    obtain ⟨hveq, hdisj, hnd, _, _, _⟩ := takeBatch_run htb
    refine ⟨?_, ?_⟩
    · simp only [List.length_map, hveq, List.length_append, h.1]
    · simp only [hveq]
      exact h.2.append hnd (fun a ha hb => hdisj a hb ha)
  · intro st h _ _ batch queue2 visited2 htb hb
    obtain ⟨hveq, _, _, _, _, _⟩ := takeBatch_run htb
    constructor
    · simp only [hveq, hb]
      simpa using h.1
    · simp only [hveq, hb]
      simpa using h.2

/-- Invariant: the visited-set size stays below
`max_pages + concurrency - 1`, at every point of the run. -/
theorem crawl_budget_inv (w : WebCrawler) (net : Net) :
    ∀ fuel,
      (crawlLoop w net fuel
        ⟨[], [w.start_url], [], 0⟩).visited_urls.length ≤
      w.max_pages + w.concurrency - 1 := by
  intro fuel
  refine crawlLoop_induction w net
    (fun st => st.visited_urls.length ≤ w.max_pages + w.concurrency - 1)
    ?_ ?_ fuel _ (by simp)
  · intro st h _ hlt batch queue2 visited2 htb _
    obtain ⟨hveq, _, _, hblen, _, _⟩ := takeBatch_run htb
    simp only [hveq, List.length_append]
    omega
  · intro st h _ _ batch queue2 visited2 htb hb
    obtain ⟨hveq, _, _, _, _, _⟩ := takeBatch_run htb
    simp only [hveq, hb]
    simpa using h

/-- Invariant: everything that ever enters the visited set or the
frontier is either the seed, or a normalized link that passed
`should_exclude`. -/
theorem crawl_provenance (w : WebCrawler) (net : Net) :
    ∀ u, (u ∈ (crawl w net).visited_urls ∨
        u ∈ (crawl w net).urls_to_visit) →
      u = w.start_url ∨
        (should_exclude w u = false ∧ ∃ a, u = normalize a) := by
  refine crawlLoop_induction w net
    (fun st => ∀ u, (u ∈ st.visited_urls ∨ u ∈ st.urls_to_visit) →
      u = w.start_url ∨
        (should_exclude w u = false ∧ ∃ a, u = normalize a)) ?_ ?_ _ _ ?_
  · intro st h _ _ batch queue2 visited2 htb _
    obtain ⟨hveq, _, _, _, hbq, hqq⟩ := takeBatch_run htb
    intro u hu
    rcases hu with hu | hu
    · rw [hveq] at hu
      rcases List.mem_append.mp hu with hu2 | hu2
      · exact h u (Or.inl hu2)
      · exact h u (Or.inr (hbq u hu2))
    · rcases processResults_fst visited2 _ queue2 st.broken_links u hu with
        hu2 | ⟨e, he, hm, _⟩
      · exact h u (Or.inr (hqq u hu2))
      · obtain ⟨url, hurl, rfl⟩ := List.mem_map.mp he
        exact Or.inr (check_url_snd_spec w net url u hm)
  · intro st h _ _ batch queue2 visited2 htb hb
    obtain ⟨hveq, _, _, _, _, hqq⟩ := takeBatch_run htb
    intro u hu
    rcases hu with hu | hu
    · rw [hveq, hb] at hu
      exact h u (Or.inl (by simpa using hu))
    · exact h u (Or.inr (hqq u hu))
  · intro u hu
    rcases hu with hu | hu
    · simp at hu
    · exact Or.inl (by simpa using hu)

/-- Invariant: every broken-link record belongs to a visited URL, carries
exactly the status `check_url` produced for it, that status is a failure
status, and its referrer snapshot is ≤ 5 visited pages not containing the
record's own URL. -/
theorem crawl_records (w : WebCrawler) (net : Net) :
    ∀ rec ∈ (crawl w net).broken_links,
      rec.url ∈ (crawl w net).visited_urls ∧
      rec.status_code = (check_url w net rec.url).1 ∧
      isBrokenStatus rec.status_code = true ∧
      rec.referred_from.length ≤ 5 ∧
      rec.url ∉ rec.referred_from ∧
      (∀ p ∈ rec.referred_from, p ∈ (crawl w net).visited_urls) := by
  refine crawlLoop_induction w net
    (fun st => ∀ rec ∈ st.broken_links,
      rec.url ∈ st.visited_urls ∧
      rec.status_code = (check_url w net rec.url).1 ∧
      isBrokenStatus rec.status_code = true ∧
      rec.referred_from.length ≤ 5 ∧
      rec.url ∉ rec.referred_from ∧
      (∀ p ∈ rec.referred_from, p ∈ st.visited_urls)) ?_ ?_ _ _
      (by intro rec hr; simp at hr)
  · intro st h _ _ batch queue2 visited2 htb _
    obtain ⟨hveq, _, _, _, _, _⟩ := takeBatch_run htb
    intro rec hr
    rw [processResults_snd] at hr
    rcases List.mem_append.mp hr with hr2 | hr2
    · obtain ⟨f1, f2, f3, f4, f5, f6⟩ := h rec hr2
      exact ⟨by rw [hveq]; exact List.mem_append_left _ f1, f2, f3, f4, f5,
        fun p hp => by rw [hveq]; exact List.mem_append_left _ (f6 p hp)⟩
    · obtain ⟨e, he, rfl, hbk⟩ := newRecs_mem visited2 _ rec hr2
      obtain ⟨url, hurl, rfl⟩ := List.mem_map.mp he
      obtain ⟨r1, r2, r3⟩ := referringPages_spec visited2 url
      exact ⟨by rw [hveq]; exact List.mem_append_right _ hurl, rfl, hbk,
        r1, r2, r3⟩
  · intro st h _ _ batch queue2 visited2 htb hb
    intro rec hr
    obtain ⟨hveq, _, _, _, _, _⟩ := takeBatch_run htb
    obtain ⟨f1, f2, f3, f4, f5, f6⟩ := h rec hr
    rw [hveq, hb]
    exact ⟨by simpa using f1, f2, f3, f4, f5,
      fun p hp => by simpa using f6 p hp⟩

/-- Invariant: for every URL `u`, the number of broken-link records whose
`url` is `u` is one if `u` was visited and its fetch failed, zero
otherwise. -/
theorem crawl_record_count (w : WebCrawler) (net : Net) :
    ∀ u, (((crawl w net).broken_links.filter
        (fun r => r.url = u)).length =
      if u ∈ (crawl w net).visited_urls ∧
          isBrokenStatus (check_url w net u).1 = true then 1 else 0) := by
  refine crawlLoop_induction w net
    (fun st => ∀ u, ((st.broken_links.filter (fun r => r.url = u)).length =
      if u ∈ st.visited_urls ∧
          isBrokenStatus (check_url w net u).1 = true then 1 else 0))
    ?_ ?_ _ _ (by intro u; simp)
  · intro st h _ _ batch queue2 visited2 htb _
    obtain ⟨hveq, hdisj, hnd, _, _, _⟩ := takeBatch_run htb
    intro u
    rw [processResults_snd, List.filter_append, List.length_append,
      h u, newRecs_count w net visited2 batch hnd u, hveq]
    by_cases hbk : isBrokenStatus (check_url w net u).1 = true
    · by_cases hv : u ∈ st.visited_urls
      · rw [if_pos ⟨hv, hbk⟩, if_neg (fun hc => hdisj u hc.1 hv),
          if_pos ⟨List.mem_append_left _ hv, hbk⟩]
      · rw [if_neg (fun hc => hv hc.1)]
        by_cases hbm : u ∈ batch
        · rw [if_pos ⟨hbm, hbk⟩,
            if_pos ⟨List.mem_append_right _ hbm, hbk⟩]
        · rw [if_neg (fun hc => hbm hc.1),
            if_neg (fun hc => (List.mem_append.mp hc.1).elim hv hbm)]
    · rw [if_neg (fun hc => hbk hc.2), if_neg (fun hc => hbk hc.2),
        if_neg (fun hc => hbk hc.2)]
  · intro st h _ _ batch queue2 visited2 htb hb
    obtain ⟨hveq, _, _, _, _, _⟩ := takeBatch_run htb
    intro u
    rw [hveq, hb]
    simpa using h u

/-- Monotonicity: a URL already visited stays visited. -/
theorem mem_visited_crawlLoop (w : WebCrawler) (net : Net) (u : Str) :
    ∀ fuel st, u ∈ st.visited_urls →
      u ∈ (crawlLoop w net fuel st).visited_urls := by
  intro fuel st h
  refine crawlLoop_induction w net (fun st => u ∈ st.visited_urls)
    ?_ ?_ fuel st h
  · intro st h2 _ _ batch queue2 visited2 htb _
    have hrun := takeBatch_run htb
    simp only []
    rw [hrun.1]
    exact List.mem_append_left _ h2
  · intro st h2 _ _ batch queue2 visited2 htb hb
    have hrun := takeBatch_run htb
    simp only []
    rw [hrun.1, hb]
    simpa using h2

theorem should_exclude_false_spec {w : WebCrawler} {url : Str}
    (h : should_exclude w url = false) :
    ((urlparse url []).netloc = [] ∨ (urlparse url []).netloc = w.domain) ∧
    ∀ pattern ∈ w.exclude_patterns, containsStr url pattern = false := by
  unfold should_exclude at h
  by_cases h1 : (urlparse url []).netloc ≠ [] ∧
      (urlparse url []).netloc ≠ w.domain
  · rw [if_pos h1] at h; simp at h
  · rw [if_neg h1] at h
    by_cases h2 :
        (w.exclude_patterns.any fun pattern => containsStr url pattern)
          = true
    · rw [if_pos h2] at h; simp at h
    · refine ⟨?_, ?_⟩
      · rcases not_and_or.mp h1 with hd | hd
        · exact Or.inl (not_not.mp hd)
        · exact Or.inr (not_not.mp hd)
      · intro pattern hp
        cases hcc : containsStr url pattern
        · rfl
        · exact absurd (List.any_eq_true.mpr ⟨pattern, hp, hcc⟩) h2

theorem should_exclude_foreign_host {w : WebCrawler} {url : Str}
    (h1 : (urlparse url []).netloc ≠ [])
    (h2 : (urlparse url []).netloc ≠ w.domain) :
    should_exclude w url = true := by
  unfold should_exclude
  rw [if_pos ⟨h1, h2⟩]

/-- With a positive page budget and positive concurrency, the seed — taken
verbatim from the configuration, with no normalization and no
`should_exclude` check — is always fetched. -/
theorem start_mem_crawl (w : WebCrawler) (net : Net)
    (hmp : 0 < w.max_pages) (hc : 0 < w.concurrency) :
    w.start_url ∈ (crawl w net).visited_urls := by
  unfold crawl
  rw [crawlLoop_succ, if_pos ⟨by simp, by simpa using hmp⟩]
  have htb : takeBatch w.concurrency [w.start_url] [] [] =
      ([w.start_url], [], [w.start_url]) := by
    simp [takeBatch, hc]
  simp only [htb]
  rw [if_neg (by simp)]
  exact mem_visited_crawlLoop w net _ _ _ (by simp)

/-! ## Concrete scenarios used by witnesses and counterexamples -/

/-- Configuration: seed `http://h/`, no exclusions, budget 10,
concurrency 10 (`WebCrawler('http://h/', [], 10, 10)`). -/
def wDemo : WebCrawler := WebCrawler.init "http://h/".toList [] 10 10

/-- A plain 404 response. -/
def respBad : Response := ⟨404, none, none, []⟩

/-- Network: the seed page links to a 404 page (`/bad`), a page whose
fetch raises (`/dead`) and a healthy linkless page (`/ok`). -/
def netDemo : Net := fun u =>
  if u = "http://h/".toList then
    some ⟨200, none, some "text/html".toList,
      ["http://h/bad".toList, "http://h/dead".toList, "http://h/ok".toList]⟩
  else if u = "http://h/bad".toList then some respBad
  else if u = "http://h/ok".toList then
    some ⟨200, none, some "text/html".toList, []⟩
  else none

/-- Like `wDemo` but with an exclude pattern that matches nothing in the
crawl. -/
def wDemoEx : WebCrawler :=
  WebCrawler.init "http://h/".toList ["priv".toList] 10 10

/-- A network on which every request raises. -/
def netNone : Net := fun _ => none

/-- Configuration whose seed itself contains the exclude pattern. -/
def wExcl : WebCrawler :=
  WebCrawler.init "http://h/admin".toList ["admin".toList] 10 10

/-- Configuration: seed `http://h/a`. -/
def wRedir : WebCrawler := WebCrawler.init "http://h/a".toList [] 10 10

/-- A 301 response with no `Location` header but an HTML body holding one
link — `requests` cannot follow such a redirect and hands it to the
crawler as-is. -/
def respRedir : Response :=
  ⟨301, none, some "text/html".toList, ["http://h/b".toList]⟩

/-- Network serving `respRedir` for the seed. -/
def netRedir : Net := fun u =>
  if u = "http://h/a".toList then some respRedir else none

/-- An ordinary 301 response with a `Location` header. -/
def respMoved : Response := ⟨301, some "http://h/c".toList, none, []⟩

/-- Network serving `respMoved` for the seed. -/
def netMoved : Net := fun u =>
  if u = "http://h/a".toList then some respMoved else none

/-- The record `netDemo`'s crawl produces for `http://h/bad`. -/
def recBad : BrokenLinkRecord :=
  ⟨"http://h/bad".toList, some 404,
   ["http://h/".toList, "http://h/dead".toList, "http://h/ok".toList]⟩

/-- Network: the seed page holds one `mailto:`-scheme href with an
absolute path. -/
def netMail : Net := fun u =>
  if u = "http://h/".toList then
    some ⟨200, none, some "text/html".toList, ["mailto:/abc".toList]⟩
  else none

/-! ## The claims -/

/-- **C1** For every crawl, each CrawlTarget is fetched at most once: a URL
already in the visited set is never placed into a batch, every URL placed
into a batch is added to the visited set before any fetch of that batch
starts (`takeBatch` returns the enlarged visited set, and the fetches of
the batch run only afterwards), and at termination the number of fetch
calls equals the size of the (duplicate-free) visited set. -/
theorem crawl_no_duplicate_visits (w : WebCrawler) (net : Net) :
    (crawl w net).fetch_count = (crawl w net).visited_urls.length ∧
    (crawl w net).visited_urls.Nodup ∧
    ∀ conc queue visited,
      (∀ u ∈ (takeBatch conc queue visited []).1, u ∉ visited) ∧
      (takeBatch conc queue visited []).2.2 =
        visited ++ (takeBatch conc queue visited []).1 := by
  refine ⟨(crawl_count_nodup w net).1, (crawl_count_nodup w net).2, ?_⟩
  intro conc queue visited
  rcases htb : takeBatch conc queue visited [] with ⟨b, q2, v2⟩
  obtain ⟨hveq, hdisj, _, _, _, _⟩ := takeBatch_run htb
  exact ⟨hdisj, hveq⟩

theorem crawl_no_duplicate_visits_witness :
    (crawl wDemo netDemo).fetch_count =
      (crawl wDemo netDemo).visited_urls.length ∧
    (crawl wDemo netDemo).fetch_count = 4 :=
  ⟨(crawl_no_duplicate_visits wDemo netDemo).1, by decide⟩

/-- **C2** For every crawl with `max_pages > 0` and `concurrency > 0`
the visited set never exceeds `max_pages + concurrency - 1` members (at
every point of the run, hence in particular at termination), and a single
batch holds at most `concurrency` URLs. -/
theorem crawl_budget_respected (w : WebCrawler) (net : Net)
    (_hmp : 0 < w.max_pages) (_hc : 0 < w.concurrency) :
    (∀ fuel,
      (crawlLoop w net fuel
        ⟨[], [w.start_url], [], 0⟩).visited_urls.length ≤
      w.max_pages + w.concurrency - 1) ∧
    (crawl w net).visited_urls.length ≤
      w.max_pages + w.concurrency - 1 ∧
    ∀ queue visited,
      (takeBatch w.concurrency queue visited []).1.length ≤
        w.concurrency := by
  refine ⟨crawl_budget_inv w net, crawl_budget_inv w net _, ?_⟩
  intro queue visited
  rcases htb : takeBatch w.concurrency queue visited [] with ⟨b, q2, v2⟩
  simp only [htb]
  exact (takeBatch_run htb).2.2.2.1

theorem crawl_budget_respected_witness :
    0 < wDemo.max_pages ∧ 0 < wDemo.concurrency ∧
    (crawl wDemo netDemo).visited_urls.length ≤
      wDemo.max_pages + wDemo.concurrency - 1 :=
  ⟨by decide, by decide,
    (crawl_budget_respected wDemo netDemo (by decide) (by decide)).2.1⟩

/-- **C3 (counterexample)** A fetch with status 301 and *no* `Location`
header whose body is HTML falls through the redirect branch: `check_url`
returns its extracted links, the link is enqueued as a new frontier entry
and even fetched — refuting "zero new frontier entries … regardless of
whether the response carries a Location header or an HTML body". -/
theorem redirect_not_followed_counterexample :
    netRedir "http://h/a".toList = some respRedir ∧
    300 ≤ respRedir.status_code ∧ respRedir.status_code < 400 ∧
    check_url wRedir netRedir "http://h/a".toList =
      (some 301, ["http://h/b".toList]) ∧
    "http://h/b".toList ∈ (crawl wRedir netRedir).visited_urls := by
  decide

/-- **C3 (amended)** A fetch whose status is 300–399 produces no
BrokenLinkRecord; and when the response carries a truthy `Location`
header, `check_url` returns zero links, so nothing is enqueued from it.
(A 3xx response *without* a `Location` header and with an HTML
content-type is parsed like a success and can contribute frontier
entries.) -/
theorem redirect_yields_no_record (w : WebCrawler) (net : Net) (url : Str)
    (r : Response) (h : net url = some r) (h3 : 300 ≤ r.status_code)
    (h4 : r.status_code < 400) :
    (∀ rec ∈ (crawl w net).broken_links, rec.url ≠ url) ∧
    (locationTruthy r = true →
      check_url w net url = (some r.status_code, [])) := by
  constructor
  · intro rec hrec heq
    obtain ⟨_, hst, hbk, _, _, _⟩ := crawl_records w net rec hrec
    rw [heq] at hst
    rw [hst, check_url_some_fst w h] at hbk
    simp only [isBrokenStatus] at hbk
    have : 400 ≤ r.status_code := by simpa using hbk
    omega
  · intro hloc
    exact check_url_redirect h ⟨h3, h4⟩ hloc

theorem redirect_yields_no_record_witness :
    netMoved "http://h/a".toList = some respMoved ∧
    (crawl wRedir netMoved).broken_links = [] ∧
    check_url wRedir netMoved "http://h/a".toList = (some 301, []) :=
  ⟨by decide, by decide,
    (redirect_yields_no_record wRedir netMoved "http://h/a".toList respMoved
      (by decide) (by decide) (by decide)).2 (by decide)⟩

/-- **C4 (counterexample)** The seed URL is enqueued and fetched without
any `should_exclude` check: with seed `http://h/admin` and exclude
pattern `admin`, the fetched set is exactly the seed, refuting "no URL
that contains that pattern … is ever fetched — including the seed URL". -/
theorem exclusion_counterexample :
    containsStr wExcl.start_url "admin".toList = true ∧
    "admin".toList ∈ wExcl.exclude_patterns ∧
    (crawl wExcl netNone).visited_urls = [wExcl.start_url] ∧
    (crawl wExcl netNone).fetch_count = 1 := by
  decide

/-- **C4 (amended)** Every fetched URL other than the seed contains no
configured exclude pattern as a substring; only the seed can violate the
exclusion rules. -/
theorem exclusion_respected_except_seed (w : WebCrawler) (net : Net)
    (u : Str) (hu : u ∈ (crawl w net).visited_urls)
    (hne : u ≠ w.start_url) :
    ∀ pattern ∈ w.exclude_patterns, containsStr u pattern = false := by
  rcases crawl_provenance w net u (Or.inl hu) with h | ⟨hse, _⟩
  · exact absurd h hne
  · exact (should_exclude_false_spec hse).2

theorem exclusion_respected_except_seed_witness :
    "http://h/bad".toList ∈ (crawl wDemoEx netDemo).visited_urls ∧
    containsStr "http://h/bad".toList "priv".toList = false :=
  ⟨by decide,
    exclusion_respected_except_seed wDemoEx netDemo "http://h/bad".toList
      (by decide) (by decide) "priv".toList (by decide)⟩

/-- **C5** For every visited URL: a connection failure (`net u = none`)
yields exactly one BrokenLinkRecord for it, whose `status_code` is `none`
(absent — not zero, not a sentinel), and a response with status ≥ 400
yields exactly one record carrying exactly that numeric status; in both
cases `check_url` extracts zero links. -/
theorem failure_classification (w : WebCrawler) (net : Net) (u : Str)
    (hu : u ∈ (crawl w net).visited_urls) :
    (net u = none →
      ((crawl w net).broken_links.filter (fun r => r.url = u)).length = 1 ∧
      (∀ rec ∈ (crawl w net).broken_links, rec.url = u →
        rec.status_code = none) ∧
      (check_url w net u).2 = []) ∧
    (∀ r, net u = some r → 400 ≤ r.status_code →
      ((crawl w net).broken_links.filter (fun r2 => r2.url = u)).length = 1 ∧
      (∀ rec ∈ (crawl w net).broken_links, rec.url = u →
        rec.status_code = some r.status_code) ∧
      (check_url w net u).2 = []) := by
  constructor
  · intro hn
    have hcu := check_url_none w hn
    have hbk : isBrokenStatus (check_url w net u).1 = true := by
      rw [hcu]; rfl
    refine ⟨?_, ?_, by rw [hcu]⟩
    · rw [crawl_record_count w net u, if_pos ⟨hu, hbk⟩]
    · intro rec hr hrequ
      obtain ⟨_, hst, _, _, _, _⟩ := crawl_records w net rec hr
      rw [hrequ] at hst
      rw [hst, hcu]
  · intro r hn h4
    have hcu := check_url_ge400 w hn h4
    have hbk : isBrokenStatus (check_url w net u).1 = true := by
      rw [hcu]
      simpa [isBrokenStatus] using h4
    refine ⟨?_, ?_, by rw [hcu]⟩
    · rw [crawl_record_count w net u, if_pos ⟨hu, hbk⟩]
    · intro rec hr hrequ
      obtain ⟨_, hst, _, _, _, _⟩ := crawl_records w net rec hr
      rw [hrequ] at hst
      rw [hst, hcu]

theorem failure_classification_witness :
    ((crawl wDemo netDemo).broken_links.filter
      (fun r => r.url = "http://h/dead".toList)).length = 1 ∧
    ((crawl wDemo netDemo).broken_links.filter
      (fun r2 => r2.url = "http://h/bad".toList)).length = 1 :=
  ⟨((failure_classification wDemo netDemo "http://h/dead".toList
      (by decide)).1 (by decide)).1,
   ((failure_classification wDemo netDemo "http://h/bad".toList
      (by decide)).2 respBad (by decide) (by decide)).1⟩

/-- **C6 (counterexample)** A page href `mailto:/abc` passes `urljoin`
unchanged (scheme mismatch), normalizes to `mailto:///abc`, whose parsed
host is *empty* — so the domain filter does not reject it, it is fetched,
enters the visited set, and its connection failure produces a
BrokenLinkRecord: a visited member and a record whose host (empty)
differs from the seed's host `h`. -/
theorem domain_confinement_counterexample :
    wDemo.domain = "h".toList ∧
    "mailto:///abc".toList ∈ (crawl wDemo netMail).visited_urls ∧
    (urlparse "mailto:///abc".toList []).netloc = [] ∧
    (∃ rec ∈ (crawl wDemo netMail).broken_links,
      rec.url = "mailto:///abc".toList) := by
  decide

/-- **C6 (amended)** For a crawler built by `__init__` (so that `domain`
is the seed's parsed host): every visited URL and every
BrokenLinkRecord's URL has either an *empty* parsed host or exactly the
seed's host; and every URL whose parsed host is nonempty and different
from the seed's host is rejected by `should_exclude` before it can be
enqueued or fetched. -/
theorem domain_confinement_amended (w : WebCrawler) (net : Net)
    (hdom : w.domain = (urlparse w.start_url []).netloc) (u : Str)
    (hu : u ∈ (crawl w net).visited_urls ∨
      ∃ rec ∈ (crawl w net).broken_links, rec.url = u) :
    ((urlparse u []).netloc = [] ∨
      (urlparse u []).netloc = (urlparse w.start_url []).netloc) ∧
    ∀ v, (urlparse v []).netloc ≠ [] →
      (urlparse v []).netloc ≠ w.domain →
      should_exclude w v = true := by
  constructor
  · have humem : u ∈ (crawl w net).visited_urls := by
      rcases hu with h | ⟨rec, hr, hru⟩
      · exact h
      · have h2 := (crawl_records w net rec hr).1
        rwa [hru] at h2
    rcases crawl_provenance w net u (Or.inl humem) with h | ⟨hse, _⟩
    · subst h
      exact Or.inr (by rw [← hdom])
    · rcases (should_exclude_false_spec hse).1 with h | h
      · exact Or.inl h
      · exact Or.inr (by rw [h, hdom])
  · intro v h1 h2
    exact should_exclude_foreign_host h1 h2

theorem domain_confinement_amended_witness :
    (urlparse "http://h/bad".toList []).netloc =
      (urlparse wDemo.start_url []).netloc :=
  ((domain_confinement_amended wDemo netDemo (by decide)
      "http://h/bad".toList (Or.inl (by decide))).1).resolve_left
    (by decide)

/-- **C7 (counterexample)** `normalize` is not idempotent on arbitrary
link strings: a scheme-less string such as `foo` normalizes to `://foo`,
which re-normalizes to `://://foo`. -/
theorem normalize_idempotent_counterexample :
    normalize (normalize "foo".toList) ≠ normalize "foo".toList := by
  decide

/-- **C7 (amended)** `normalize (normalize x) = normalize x` for every
link string `x` whose parse carries a nonempty scheme — in particular for
every absolute URL, hence for everything `check_url` actually
normalizes after `urljoin` against an absolute page URL. -/
theorem normalize_idempotent_amended (x : Str)
    (h : (urlparse x []).scheme ≠ []) :
    normalize (normalize x) = normalize x :=
  normalize_idem_of_scheme h

theorem normalize_idempotent_amended_witness :
    (urlparse "HTTP://Host/A;p?q=1#f".toList []).scheme ≠ [] ∧
    normalize (normalize "HTTP://Host/A;p?q=1#f".toList) =
      normalize "HTTP://Host/A;p?q=1#f".toList :=
  ⟨by decide, normalize_idempotent_amended "HTTP://Host/A;p?q=1#f".toList
    (by decide)⟩

/-- **C8** Every BrokenLinkRecord the crawl creates has a `referred_from`
of length at most 5 that does not contain the record's own URL and whose
members are visited URLs; and the snapshot constructor `referringPages`
draws only from the visited set it is given at creation time. -/
theorem broken_record_referrers (w : WebCrawler) (net : Net) :
    (∀ rec ∈ (crawl w net).broken_links,
      rec.referred_from.length ≤ 5 ∧
      rec.url ∉ rec.referred_from ∧
      ∀ p ∈ rec.referred_from, p ∈ (crawl w net).visited_urls) ∧
    ∀ visited url,
      (referringPages visited url).length ≤ 5 ∧
      url ∉ referringPages visited url ∧
      ∀ p ∈ referringPages visited url, p ∈ visited := by
  constructor
  · intro rec hr
    obtain ⟨_, _, _, f4, f5, f6⟩ := crawl_records w net rec hr
    exact ⟨f4, f5, f6⟩
  · exact referringPages_spec

theorem broken_record_referrers_witness :
    recBad ∈ (crawl wDemo netDemo).broken_links ∧
    recBad.referred_from.length ≤ 5 ∧
    recBad.url ∉ recBad.referred_from := by
  refine ⟨by decide, ?_, ?_⟩
  · exact ((broken_record_referrers wDemo netDemo).1 recBad (by decide)).1
  · exact ((broken_record_referrers wDemo netDemo).1 recBad (by decide)).2.1

/-- **C9 (code bug)** `generate_html_report` computes
`link['status_code'] >= 400` before the `Connection Error` fallback, so a
record with a `None` status — the exact shape the crawler produces for a
connection failure — raises `TypeError` instead of rendering: the
renderer crashes on the very input the spec requires it to render. -/
theorem report_crashes_on_null_status :
    generate_html_report
      [⟨"http://h/x".toList, none, ["http://h/".toList]⟩]
      "http://h/".toList "2026-10-12 00:00:00".toList =
    .error
      "TypeError: >= not supported between instances of NoneType and int".toList
    := by
  rfl

/-- **C10** The seed URL bypasses both normalization and the eligibility
filter: with a positive budget and positive concurrency the configured
`start_url` is fetched exactly as given (it is a member of the visited
set verbatim, whatever `should_exclude` says about it), and every other
visited URL both passed `should_exclude` and is the image of the inline
normalization. -/
theorem seed_bypasses_filter (w : WebCrawler) (net : Net)
    (hmp : 0 < w.max_pages) (hc : 0 < w.concurrency) :
    w.start_url ∈ (crawl w net).visited_urls ∧
    ∀ u ∈ (crawl w net).visited_urls, u ≠ w.start_url →
      should_exclude w u = false ∧ ∃ a, u = normalize a := by
  constructor
  · exact start_mem_crawl w net hmp hc
  · intro u hu hne
    rcases crawl_provenance w net u (Or.inl hu) with h | h
    · exact absurd h hne
    · exact h

theorem seed_bypasses_filter_witness :
    should_exclude wExcl wExcl.start_url = true ∧
    wExcl.start_url ∈ (crawl wExcl netNone).visited_urls :=
  ⟨by decide,
    (seed_bypasses_filter wExcl netNone (by decide) (by decide)).1⟩

end PyCrawler
